import Mathlib

/-!
Verification of the HoldIQ 13F position-delta engine.

The definitions below are a shallow embedding of the Python sources
`build_positions_delta.py`, `fetch_manager_snapshot.py` and
`generate_ai_brief.py`.  SQLite `REAL` values are modelled as `ℚ`
(nullable columns as `Option ℚ`), Python dicts as association lists with
in-place update, and the SQL statements as the list transformations they
perform on the stored rows.
-/

namespace HoldIQ

/-- The `delta_type` labels written by `compute_delta_row`. -/
inductive DeltaType
  | new
  | closed
  | increase
  | decrease
deriving DecidableEq, Repr

/-- One `positions_13f` row as selected by `fetch_quarter_positions`
(`cusip, issuer, shares, value_usd`); `shares` and `value_usd` are
nullable columns. -/
structure PosRow where
  cusip : String
  issuer : String
  shares : Option ℚ
  value_usd : Option ℚ
deriving DecidableEq, Repr

/-- One entry of the `positions` dict built by `fetch_quarter_positions`. -/
structure Position where
  cusip : String
  companyName : String
  shares : ℚ
  value_usd : ℚ
  weight_pct : ℚ
deriving DecidableEq, Repr

/-- `total_value = sum((r[3] or 0.0) for r in rows)`. -/
def totalValue (rows : List PosRow) : ℚ :=
  (rows.map (fun r => r.value_usd.getD 0)).sum

/-- `if total_value <= 0: total_value = 0.0`. -/
def clampTotal (t : ℚ) : ℚ :=
  if t ≤ 0 then 0 else t

/-- The dict entry built for one row inside the loop of
`fetch_quarter_positions`, with null coercions `or 0.0` and the
`weight_pct` guard `if total_value > 0 else 0.0`. -/
def mkPosition (total : ℚ) (r : PosRow) : Position :=
  { cusip := r.cusip
    companyName := r.issuer
    shares := r.shares.getD 0
    value_usd := r.value_usd.getD 0
    weight_pct := if 0 < total then r.value_usd.getD 0 / total * 100 else 0 }

/-- Python dict assignment `positions[cusip] = {...}`: replace the entry
in place when the key is present, append otherwise. -/
def dictUpsert (m : List (String × Position)) (k : String) (v : Position) :
    List (String × Position) :=
  if k ∈ m.map Prod.fst then
    m.map (fun kv => if kv.1 = k then (k, v) else kv)
  else
    m ++ [(k, v)]

/-- `fetch_quarter_positions`: compute the period total, then fill the
`positions` dict keyed by cusip. -/
def fetch_quarter_positions (rows : List PosRow) : List (String × Position) :=
  let total := clampTotal (totalValue rows)
  rows.foldl (fun m r => dictUpsert m r.cusip (mkPosition total r)) []

/-- Python dict lookup `positions.get(cusip)`. -/
def findPos (m : List (String × Position)) (k : String) : Option Position :=
  (m.find? (fun kv => kv.1 == k)).map Prod.snd

/-- The row written into `positions_13f_delta` (without the surrogate
autoincrement id). -/
structure DeltaRow where
  cik : String
  reportPeriod : String
  ticker : String
  companyName : String
  delta_type : DeltaType
  old_shares : ℚ
  new_shares : ℚ
  delta_shares : ℚ
  old_value_usd : ℚ
  new_value_usd : ℚ
  delta_value_usd : ℚ
  old_weight_pct : ℚ
  new_weight_pct : ℚ
  delta_weight_pct : ℚ
deriving DecidableEq, Repr

/-- The both-sides-present branch of the classifier in
`compute_delta_row`. -/
def classifyBoth (delta_shares delta_value : ℚ) : DeltaType :=
  if 0 < delta_shares ∧ 0 ≤ delta_value then .increase
  else if delta_shares < 0 ∧ delta_value ≤ 0 then .decrease
  else if 0 < delta_value then .increase
  else .decrease

/-- `compute_delta_row`: `none` models the `ValueError` raised when both
sides are absent; otherwise the populated delta row is returned. -/
def compute_delta_row (cik reportPeriod cusip : String) :
    Option Position → Option Position → Option DeltaRow
  | none, none => none
  | prev, curr =>
      let companyName :=
        match curr, prev with
        | some c, _ => c.companyName
        | none, some p => p.companyName
        | none, none => ""
      let old_shares := (prev.map Position.shares).getD 0
      let new_shares := (curr.map Position.shares).getD 0
      let delta_shares := new_shares - old_shares
      let old_value := (prev.map Position.value_usd).getD 0
      let new_value := (curr.map Position.value_usd).getD 0
      let delta_value := new_value - old_value
      let old_weight := (prev.map Position.weight_pct).getD 0
      let new_weight := (curr.map Position.weight_pct).getD 0
      let dt :=
        match prev, curr with
        | none, some _ => DeltaType.new
        | some _, none => DeltaType.closed
        | _, _ => classifyBoth delta_shares delta_value
      some
        { cik := cik
          reportPeriod := reportPeriod
          ticker := cusip
          companyName := companyName
          delta_type := dt
          old_shares := old_shares
          new_shares := new_shares
          delta_shares := delta_shares
          old_value_usd := old_value
          new_value_usd := new_value
          delta_value_usd := delta_value
          old_weight_pct := old_weight
          new_weight_pct := new_weight
          delta_weight_pct := new_weight - old_weight }

/-- Keys of a snapshot dict. -/
def snapKeys (m : List (String × Position)) : List String :=
  m.map Prod.fst

/-- `set(prev_positions.keys()) | set(curr_positions.keys())` as a
duplicate-free list (one canonical enumeration of the union). -/
def allCusips (prev curr : List (String × Position)) : List String :=
  (snapKeys prev ++ snapKeys curr).dedup

/-- The per-pair loop of `main`, iterating the union of cusips in the
given enumeration `order` (Python set iteration order is arbitrary). -/
def reconcileWith (cik reportPeriod : String) (prev curr : List (String × Position))
    (order : List String) : List DeltaRow :=
  order.filterMap
    (fun c => compute_delta_row cik reportPeriod c (findPos prev c) (findPos curr c))

/-- The per-pair loop of `main` with the canonical union enumeration. -/
def reconcile (cik reportPeriod : String) (prev curr : List (String × Position)) :
    List DeltaRow :=
  reconcileWith cik reportPeriod prev curr (allCusips prev curr)

/-- One full `positions_13f` row as used by `main` (manager and period
columns included). -/
structure DbPosRow where
  manager_cik : String
  report_period : String
  cusip : String
  issuer : String
  shares : Option ℚ
  value_usd : Option ℚ
deriving DecidableEq, Repr

/-- `SELECT cusip, issuer, shares, value_usd FROM positions_13f WHERE
manager_cik = ? AND report_period = ?`. -/
def rowsFor (tbl : List DbPosRow) (cik period : String) : List PosRow :=
  (tbl.filter (fun r => r.manager_cik == cik && r.report_period == period)).map
    (fun r => ⟨r.cusip, r.issuer, r.shares, r.value_usd⟩)

/-- Plain string order (character-wise, the order SQLite and Python use
on these ASCII period labels), used for `sorted(periods)`. -/
def strLE (a b : String) : Prop :=
  a.data < b.data ∨ a = b

instance : DecidableRel strLE := fun a b =>
  inferInstanceAs (Decidable (_ ∨ _))

/-- Lexicographic order on (manager_cik, report_period), the
`ORDER BY manager_cik, report_period` of `main`. -/
def pairLE (a b : String × String) : Prop :=
  a.1.data < b.1.data ∨ (a.1 = b.1 ∧ strLE a.2 b.2)

instance : DecidableRel pairLE := fun a b =>
  inferInstanceAs (Decidable (_ ∨ _))

/-- `SELECT DISTINCT manager_cik, report_period FROM positions_13f ORDER
BY manager_cik, report_period`. -/
def distinctPairs (tbl : List DbPosRow) : List (String × String) :=
  List.insertionSort pairLE ((tbl.map (fun r => (r.manager_cik, r.report_period))).dedup)

/-- The managers in the order the `by_manager` dict acquires its keys. -/
def managerList (tbl : List DbPosRow) : List String :=
  ((distinctPairs tbl).map Prod.fst).dedup

/-- `periods_sorted = sorted(periods)` for one manager. -/
def periodsFor (tbl : List DbPosRow) (m : String) : List String :=
  List.insertionSort strLE (((distinctPairs tbl).filter (fun p => p.1 == m)).map Prod.snd)

/-- The delta rows computed by `main` for one adjacent (prev, curr)
period pair of one manager. -/
def pairDeltaRows (tbl : List DbPosRow) (m prevP currP : String) : List DeltaRow :=
  reconcile m currP (fetch_quarter_positions (rowsFor tbl m prevP))
    (fetch_quarter_positions (rowsFor tbl m currP))

/-- The successive `executemany` insert batches of `main`, in execution
order: one batch per adjacent period pair of each manager with at least
two periods. -/
def insertBatches (tbl : List DbPosRow) : List (List DeltaRow) :=
  (managerList tbl).flatMap (fun m =>
    let ps := periodsFor tbl m
    if ps.length < 2 then []
    else (ps.zip ps.tail).map (fun pc => pairDeltaRows tbl m pc.1 pc.2))

/-- The content of `positions_13f_delta` when `main` finishes. -/
def allDeltaRows (tbl : List DbPosRow) : List DeltaRow :=
  (insertBatches tbl).foldl (fun acc b => acc ++ b) []

/-- The committed states of `positions_13f_delta` during a run of `main`:
the initial table, the state right after the committed
`DELETE FROM positions_13f_delta`, then one state per committed insert
batch. -/
def mainTrace (tbl : List DbPosRow) (delta0 : List DeltaRow) : List (List DeltaRow) :=
  delta0 :: List.scanl (fun acc b => acc ++ b) [] (insertBatches tbl)

/-- The delta rows of one (manager, period) pair within a table state. -/
def deltaRowsForPair (d : List DeltaRow) (cik period : String) : List DeltaRow :=
  d.filter (fun r => r.cik == cik && r.reportPeriod == period)

/-- `CASE delta_type WHEN 'new' THEN 1 WHEN 'increase' THEN 2 WHEN
'decrease' THEN 3 WHEN 'closed' THEN 4 ELSE 5 END` from
`generate_ai_brief.fetch_manager_snapshot`. -/
def deltaPriority : DeltaType → Nat
  | .new => 1
  | .increase => 2
  | .decrease => 3
  | .closed => 4

/-- The `ORDER BY` relation of the deltas query in
`generate_ai_brief.fetch_manager_snapshot`: change-type priority
ascending, then `ABS(delta_value_usd)` descending. -/
def deltaOrder (a b : DeltaRow) : Prop :=
  deltaPriority a.delta_type < deltaPriority b.delta_type
    ∨ (deltaPriority a.delta_type = deltaPriority b.delta_type
        ∧ |b.delta_value_usd| ≤ |a.delta_value_usd|)

instance : DecidableRel deltaOrder := fun a b =>
  inferInstanceAs (Decidable (_ ∨ _))

/-- The deltas read for one (cik, reportPeriod) by
`generate_ai_brief.fetch_manager_snapshot` (`LIMIT 200`). -/
def fetch_manager_deltas (tbl : List DeltaRow) (cik reportPeriod : String) :
    List DeltaRow :=
  (List.insertionSort deltaOrder
    (tbl.filter (fun r => r.cik == cik && r.reportPeriod == reportPeriod))).take 200

/-- Sum of the `weight_pct` entries of a snapshot dict. -/
def sumWeights (m : List (String × Position)) : ℚ :=
  (m.map (fun kv => kv.2.weight_pct)).sum

/-- Sum of the `value_usd` entries of a snapshot dict. -/
def sumVals (m : List (String × Position)) : ℚ :=
  (m.map (fun kv => kv.2.value_usd)).sum

/-- The `value_usd` currently stored under key `k` (0 when absent). -/
def curVal (m : List (String × Position)) (k : String) : ℚ :=
  ((findPos m k).map Position.value_usd).getD 0

/-- `ORDER BY value_usd DESC` on nullable values: SQLite sorts NULL
below every number, so descending order puts NULL rows last. -/
def valDesc (a b : PosRow) : Prop :=
  match b.value_usd, a.value_usd with
  | none, _ => True
  | some _, none => False
  | some y, some x => y ≤ x

instance : DecidableRel valDesc := fun a b => by
  unfold valDesc
  cases b.value_usd <;> cases a.value_usd <;> infer_instance

/-- The `running_sum_top10` computed by
`fetch_manager_snapshot.build_manager_snapshot`: rows of the period
sorted by `value_usd DESC` and truncated to `top_n` (`LIMIT ?`), weights
from the whole-period total, summed over loop indices below 10. -/
def build_manager_snapshot_top10 (rows : List PosRow) (top_n : Nat) : ℚ :=
  let total := totalValue rows
  let holdings := (List.insertionSort valDesc rows).take top_n
  ((holdings.take 10).map
    (fun r => if 0 < total then r.value_usd.getD 0 / total * 100 else 0)).sum

/-- An admissible iteration order for the Python set
`set(prev.keys()) | set(curr.keys())`: some permutation of the distinct
union keys. -/
abbrev validOrder (prev curr : List (String × Position)) (order : List String) : Prop :=
  order.Perm (allCusips prev curr)

instance : IsTotal DeltaRow deltaOrder :=
  ⟨by
    intro a b
    unfold deltaOrder
    rcases Nat.lt_trichotomy (deltaPriority a.delta_type) (deltaPriority b.delta_type)
      with h | h | h
    · exact Or.inl (Or.inl h)
    · rcases le_total |b.delta_value_usd| |a.delta_value_usd| with h2 | h2
      · exact Or.inl (Or.inr ⟨h, h2⟩)
      · exact Or.inr (Or.inr ⟨h.symm, h2⟩)
    · exact Or.inr (Or.inl h)⟩

instance : IsTrans DeltaRow deltaOrder :=
  ⟨by
    intro a b c hab hbc
    unfold deltaOrder at hab hbc ⊢
    rcases hab with h1 | ⟨h1, h1v⟩ <;> rcases hbc with h2 | ⟨h2, h2v⟩
    · exact Or.inl (h1.trans h2)
    · exact Or.inl (by omega)
    · exact Or.inl (by omega)
    · exact Or.inr ⟨h1.trans h2, h2v.trans h1v⟩⟩

instance : IsTotal PosRow valDesc :=
  ⟨by
    intro a b
    unfold valDesc
    cases ha : a.value_usd with
    | none => cases hb : b.value_usd with
      | none => exact Or.inl trivial
      | some y => exact Or.inr trivial
    | some x => cases hb : b.value_usd with
      | none => exact Or.inl trivial
      | some y => exact le_total y x⟩

instance : IsTrans PosRow valDesc :=
  ⟨by
    intro a b c hab hbc
    unfold valDesc at hab hbc ⊢
    cases ha : a.value_usd with
    | none =>
      rw [ha] at hab
      cases hb : b.value_usd with
      | none =>
        rw [hb] at hbc
        cases hc : c.value_usd with
        | none => exact trivial
        | some z => rw [hc] at hbc; exact absurd hbc (by simp)
      | some y => rw [hb] at hab; exact absurd hab (by simp)
    | some x =>
      rw [ha] at hab
      cases hc : c.value_usd with
      | none => exact trivial
      | some z =>
        rw [hc] at hbc
        cases hb : b.value_usd with
        | none => rw [hb] at hbc; exact absurd hbc (by simp)
        | some y =>
          rw [hb] at hab hbc
          exact le_trans hbc hab⟩

/-- A four-row position table: managers A and B, two periods each. -/
def exTbl5 : List DbPosRow :=
  [⟨"A", "1", "AAA", "IssA", some 1, some 10⟩,
    ⟨"A", "2", "AAA", "IssA", some 2, some 20⟩,
    ⟨"B", "1", "BBB", "IssB", some 3, some 30⟩,
    ⟨"B", "2", "BBB", "IssB", some 4, some 40⟩]

/-! ### Helper lemmas about the classifier -/

theorem classifyBoth_cases (ds dv : ℚ) :
    classifyBoth ds dv = DeltaType.increase ∨ classifyBoth ds dv = DeltaType.decrease := by
  unfold classifyBoth
  split_ifs <;> simp

theorem compute_delta_row_some_some (cik rp c : String) (pp cp : Position) :
    compute_delta_row cik rp c (some pp) (some cp) =
      some
        { cik := cik
          reportPeriod := rp
          ticker := c
          companyName := cp.companyName
          delta_type := classifyBoth (cp.shares - pp.shares) (cp.value_usd - pp.value_usd)
          old_shares := pp.shares
          new_shares := cp.shares
          delta_shares := cp.shares - pp.shares
          old_value_usd := pp.value_usd
          new_value_usd := cp.value_usd
          delta_value_usd := cp.value_usd - pp.value_usd
          old_weight_pct := pp.weight_pct
          new_weight_pct := cp.weight_pct
          delta_weight_pct := cp.weight_pct - pp.weight_pct } := by
  rfl

theorem classifyBoth_spec (ds dv : ℚ) :
    (0 < ds ∧ 0 ≤ dv → classifyBoth ds dv = DeltaType.increase)
    ∧ (ds < 0 ∧ dv ≤ 0 → classifyBoth ds dv = DeltaType.decrease)
    ∧ (¬(0 < ds ∧ 0 ≤ dv) → ¬(ds < 0 ∧ dv ≤ 0) →
        ((classifyBoth ds dv = DeltaType.increase ↔ 0 < dv)
          ∧ (classifyBoth ds dv = DeltaType.decrease ↔ ¬0 < dv)))
    ∧ (ds = 0 ∧ dv ≤ 0 → classifyBoth ds dv = DeltaType.decrease) := by
  unfold classifyBoth
  split_ifs with h1 h2 h3
  · exact ⟨fun _ => rfl, fun h => absurd h1.1 (by linarith [h.1]),
      fun hn _ => absurd h1 hn, fun h => absurd h1.1 (by simp [h.1])⟩
  · exact ⟨fun h => absurd h h1, fun _ => rfl, fun _ hn => absurd h2 hn, fun _ => rfl⟩
  · exact ⟨fun h => absurd h h1, fun h => absurd h h2,
      fun _ _ => ⟨⟨fun _ => h3, fun _ => rfl⟩,
        ⟨fun heq => by simp at heq, fun hv => absurd h3 hv⟩⟩,
      fun h => absurd h3 (by linarith [h.2])⟩
  · exact ⟨fun h => absurd h h1, fun h => absurd h h2,
      fun _ _ => ⟨⟨fun heq => by simp at heq, fun hv => absurd hv h3⟩,
        ⟨fun _ => h3, fun _ => rfl⟩⟩,
      fun _ => rfl⟩

/-- C1: with both a previous and a current position present, the
classifier returns INCREASE when shares rose and value did not fall,
DECREASE when shares fell and value did not rise, and otherwise decides
by value direction alone (zero share and value change, or unchanged
shares with a value drop, both give DECREASE). -/
theorem claim_c1 (cik rp c : String) (pp cp : Position) (row : DeltaRow)
    (h : compute_delta_row cik rp c (some pp) (some cp) = some row) :
    (0 < cp.shares - pp.shares ∧ 0 ≤ cp.value_usd - pp.value_usd →
        row.delta_type = DeltaType.increase)
    ∧ (cp.shares - pp.shares < 0 ∧ cp.value_usd - pp.value_usd ≤ 0 →
        row.delta_type = DeltaType.decrease)
    ∧ (¬(0 < cp.shares - pp.shares ∧ 0 ≤ cp.value_usd - pp.value_usd) →
        ¬(cp.shares - pp.shares < 0 ∧ cp.value_usd - pp.value_usd ≤ 0) →
        ((row.delta_type = DeltaType.increase ↔ 0 < cp.value_usd - pp.value_usd)
          ∧ (row.delta_type = DeltaType.decrease ↔ ¬0 < cp.value_usd - pp.value_usd)))
    ∧ (cp.shares = pp.shares ∧ cp.value_usd ≤ pp.value_usd →
        row.delta_type = DeltaType.decrease) := by
  rw [compute_delta_row_some_some] at h
  injection h with h2
  subst h2
  have spec := classifyBoth_spec (cp.shares - pp.shares) (cp.value_usd - pp.value_usd)
  exact ⟨spec.1, spec.2.1, spec.2.2.1,
    fun hz => spec.2.2.2 ⟨sub_eq_zero.mpr hz.1, sub_nonpos.mpr hz.2⟩⟩

/-- Witness for C1 at shares 10 → 10, value 100 → 90: DECREASE. -/
theorem claim_c1_witness :
    ((compute_delta_row "M" "P" "X" (some ⟨"X", "I", 10, 100, 50⟩)
        (some ⟨"X", "I", 10, 90, 45⟩)).map DeltaRow.delta_type)
      = some DeltaType.decrease := by
  have h := compute_delta_row_some_some "M" "P" "X" ⟨"X", "I", 10, 100, 50⟩
    ⟨"X", "I", 10, 90, 45⟩
  have hdec := (claim_c1 "M" "P" "X" ⟨"X", "I", 10, 100, 50⟩ ⟨"X", "I", 10, 90, 45⟩ _ h).2.2.2
    (by norm_num)
  rw [h]
  exact congrArg some hdec

theorem compute_delta_row_none_some (cik rp c : String) (cp : Position) :
    compute_delta_row cik rp c none (some cp) =
      some
        { cik := cik
          reportPeriod := rp
          ticker := c
          companyName := cp.companyName
          delta_type := DeltaType.new
          old_shares := 0
          new_shares := cp.shares
          delta_shares := cp.shares - 0
          old_value_usd := 0
          new_value_usd := cp.value_usd
          delta_value_usd := cp.value_usd - 0
          old_weight_pct := 0
          new_weight_pct := cp.weight_pct
          delta_weight_pct := cp.weight_pct - 0 } := by
  rfl

theorem compute_delta_row_some_none (cik rp c : String) (pp : Position) :
    compute_delta_row cik rp c (some pp) none =
      some
        { cik := cik
          reportPeriod := rp
          ticker := c
          companyName := pp.companyName
          delta_type := DeltaType.closed
          old_shares := pp.shares
          new_shares := 0
          delta_shares := 0 - pp.shares
          old_value_usd := pp.value_usd
          new_value_usd := 0
          delta_value_usd := 0 - pp.value_usd
          old_weight_pct := pp.weight_pct
          new_weight_pct := 0
          delta_weight_pct := 0 - pp.weight_pct } := by
  rfl

/-- C4: a computed delta row is NEW exactly when the previous side is
absent and the current side present, CLOSED exactly in the symmetric
case, and the absent side's fields default to zero. -/
theorem claim_c4 (cik rp c : String) (prev curr : Option Position) (row : DeltaRow)
    (h : compute_delta_row cik rp c prev curr = some row) :
    (row.delta_type = DeltaType.new ↔ prev = none ∧ curr ≠ none)
    ∧ (row.delta_type = DeltaType.closed ↔ prev ≠ none ∧ curr = none)
    ∧ (prev = none →
        row.old_shares = 0 ∧ row.old_value_usd = 0 ∧ row.old_weight_pct = 0)
    ∧ (curr = none →
        row.new_shares = 0 ∧ row.new_value_usd = 0 ∧ row.new_weight_pct = 0) := by
  cases prev with
  | none =>
    cases curr with
    | none =>
      have h0 : compute_delta_row cik rp c none none = (none : Option DeltaRow) := rfl
      rw [h0] at h
      exact absurd h (by simp)
    | some cp =>
      rw [compute_delta_row_none_some] at h
      injection h with h2
      subst h2
      refine ⟨by simp, by simp, fun _ => ⟨rfl, rfl, rfl⟩, by simp⟩
  | some pp =>
    cases curr with
    | none =>
      rw [compute_delta_row_some_none] at h
      injection h with h2
      subst h2
      refine ⟨by simp, by simp, by simp, fun _ => ⟨rfl, rfl, rfl⟩⟩
    | some cp =>
      rw [compute_delta_row_some_some] at h
      injection h with h2
      subst h2
      rcases classifyBoth_cases (cp.shares - pp.shares) (cp.value_usd - pp.value_usd)
        with hc | hc <;>
        exact ⟨by simp [hc], by simp [hc], by simp, by simp⟩

/-- Witness for C4 on a NEW position. -/
theorem claim_c4_witness :
    ((compute_delta_row "M" "P" "B" none (some ⟨"B", "IssB", 50, 500, 25⟩)).map
        DeltaRow.delta_type) = some DeltaType.new
    ∧ ((compute_delta_row "M" "P" "B" none (some ⟨"B", "IssB", 50, 500, 25⟩)).map
        DeltaRow.old_shares) = some 0 := by
  have h := compute_delta_row_none_some "M" "P" "B" ⟨"B", "IssB", 50, 500, 25⟩
  have hm := claim_c4 "M" "P" "B" none (some ⟨"B", "IssB", 50, 500, 25⟩) _ h
  constructor
  · rw [h]
    exact congrArg some (hm.1.mpr ⟨rfl, by simp⟩)
  · rw [h]
    exact congrArg some (hm.2.2.1 rfl).1

/-! ### Reconciliation: completeness and order independence -/

theorem findPos_isSome_of_mem {m : List (String × Position)} {c : String}
    (h : c ∈ snapKeys m) : (findPos m c).isSome := by
  unfold snapKeys at h
  obtain ⟨kv, hkv, hc⟩ := List.mem_map.mp h
  unfold findPos
  have hsome : (List.find? (fun kv => kv.1 == c) m).isSome = true :=
    List.find?_isSome.mpr ⟨kv, hkv, by simp [hc]⟩
  cases hfind : List.find? (fun kv => kv.1 == c) m with
  | none =>
    rw [hfind] at hsome
    exact absurd hsome (by simp)
  | some kv2 => rfl

theorem compute_delta_row_mem_union (cik rp : String) {c : String}
    {prev curr : List (String × Position)}
    (h : c ∈ snapKeys prev ∨ c ∈ snapKeys curr) :
    ∃ row, compute_delta_row cik rp c (findPos prev c) (findPos curr c) = some row
      ∧ row.ticker = c := by
  cases hp : findPos prev c with
  | none =>
    cases hc : findPos curr c with
    | none =>
      rcases h with h | h
      · have := findPos_isSome_of_mem h
        rw [hp] at this
        exact absurd this (by simp)
      · have := findPos_isSome_of_mem h
        rw [hc] at this
        exact absurd this (by simp)
    | some cp => exact ⟨_, compute_delta_row_none_some cik rp c cp, rfl⟩
  | some pp =>
    cases hc : findPos curr c with
    | none => exact ⟨_, compute_delta_row_some_none cik rp c pp, rfl⟩
    | some cp => exact ⟨_, compute_delta_row_some_some cik rp c pp cp, rfl⟩

theorem reconcileWith_length (cik rp : String) (prev curr : List (String × Position))
    (order : List String)
    (h : ∀ c ∈ order, c ∈ snapKeys prev ∨ c ∈ snapKeys curr) :
    (reconcileWith cik rp prev curr order).length = order.length := by
  induction order with
  | nil => rfl
  | cons d o ih =>
    obtain ⟨row, hrow, -⟩ := compute_delta_row_mem_union cik rp (h d (by simp))
    have ih2 := ih (fun c hc => h c (by simp [hc]))
    simp only [reconcileWith, List.filterMap_cons, hrow] at ih2 ⊢
    simp [ih2]

theorem reconcileWith_countP (cik rp : String) (prev curr : List (String × Position))
    (order : List String) (c : String)
    (h : ∀ d ∈ order, d ∈ snapKeys prev ∨ d ∈ snapKeys curr) :
    (reconcileWith cik rp prev curr order).countP (fun r => r.ticker == c)
      = order.count c := by
  induction order with
  | nil => rfl
  | cons d o ih =>
    obtain ⟨row, hrow, hticker⟩ := compute_delta_row_mem_union cik rp (h d (by simp))
    have ih2 := ih (fun x hx => h x (by simp [hx]))
    simp only [reconcileWith, List.filterMap_cons, hrow] at ih2 ⊢
    rw [List.countP_cons, List.count_cons, ih2, hticker]

/-- C3: the reconciliation of two snapshots emits exactly one delta
record per cusip in the union of the two key sets. -/
theorem claim_c3 (cik rp : String) (prev curr : List (String × Position)) :
    (reconcile cik rp prev curr).length
      = ((snapKeys prev).toFinset ∪ (snapKeys curr).toFinset).card
    ∧ ∀ c, (c ∈ snapKeys prev ∨ c ∈ snapKeys curr) →
        (reconcile cik rp prev curr).countP (fun r => r.ticker == c) = 1 := by
  have hmem : ∀ c ∈ allCusips prev curr, c ∈ snapKeys prev ∨ c ∈ snapKeys curr := by
    intro c hc
    have := List.mem_dedup.mp hc
    simpa using List.mem_append.mp this
  constructor
  · rw [reconcile, reconcileWith_length cik rp prev curr _ hmem]
    rw [← List.toFinset_append, List.card_toFinset]
    rfl
  · intro c hc
    rw [reconcile, reconcileWith_countP cik rp prev curr _ c hmem]
    exact List.count_eq_one_of_mem (List.nodup_dedup _)
      (List.mem_dedup.mpr (List.mem_append.mpr (by simpa using hc)))

/-- Witness for C3 on the two-snapshot example of the spec. -/
theorem claim_c3_witness :
    (reconcile "M" "P"
        (fetch_quarter_positions [⟨"AAA", "IssA", some 100, some 1000⟩])
        (fetch_quarter_positions
          [⟨"AAA", "IssA", some 150, some 1600⟩, ⟨"BBB", "IssB", some 50, some 500⟩])).length
      = ((snapKeys (fetch_quarter_positions [⟨"AAA", "IssA", some 100, some 1000⟩])).toFinset
          ∪ (snapKeys (fetch_quarter_positions
              [⟨"AAA", "IssA", some 150, some 1600⟩,
                ⟨"BBB", "IssB", some 50, some 500⟩])).toFinset).card
    ∧ (reconcile "M" "P"
        (fetch_quarter_positions [⟨"AAA", "IssA", some 100, some 1000⟩])
        (fetch_quarter_positions
          [⟨"AAA", "IssA", some 150, some 1600⟩,
            ⟨"BBB", "IssB", some 50, some 500⟩])).countP
        (fun r => r.ticker == "BBB") = 1 := by
  have h := claim_c3 "M" "P"
    (fetch_quarter_positions [⟨"AAA", "IssA", some 100, some 1000⟩])
    (fetch_quarter_positions
      [⟨"AAA", "IssA", some 150, some 1600⟩, ⟨"BBB", "IssB", some 50, some 500⟩])
  exact ⟨h.1, h.2 "BBB" (by right; decide)⟩

/-- C6: recomputing the deltas of one (manager, period) pair from
unchanged snapshot rows yields the same multiset of delta rows, whatever
union-iteration order each run uses. -/
theorem claim_c6 (cik rp : String) (prevRows currRows : List PosRow)
    (o₁ o₂ : List String)
    (h₁ : validOrder (fetch_quarter_positions prevRows)
      (fetch_quarter_positions currRows) o₁)
    (h₂ : validOrder (fetch_quarter_positions prevRows)
      (fetch_quarter_positions currRows) o₂) :
    (reconcileWith cik rp (fetch_quarter_positions prevRows)
        (fetch_quarter_positions currRows) o₁).Perm
      (reconcileWith cik rp (fetch_quarter_positions prevRows)
        (fetch_quarter_positions currRows) o₂) :=
  (h₁.trans h₂.symm).filterMap _

/-- Witness for C6: two opposite iteration orders of a two-cusip union. -/
theorem claim_c6_witness :
    (reconcileWith "M" "P"
        (fetch_quarter_positions [⟨"AAA", "IssA", some 100, some 1000⟩])
        (fetch_quarter_positions [⟨"BBB", "IssB", some 50, some 500⟩])
        ["AAA", "BBB"]).Perm
      (reconcileWith "M" "P"
        (fetch_quarter_positions [⟨"AAA", "IssA", some 100, some 1000⟩])
        (fetch_quarter_positions [⟨"BBB", "IssB", some 50, some 500⟩])
        ["BBB", "AAA"]) :=
  claim_c6 "M" "P" [⟨"AAA", "IssA", some 100, some 1000⟩]
    [⟨"BBB", "IssB", some 50, some 500⟩] ["AAA", "BBB"] ["BBB", "AAA"]
    (by decide) (by decide)

/-! ### Ordering contract of the AI-brief delta query -/

/-- C7: the delta rows read for a (manager, period) by the AI layer are
ordered by change-type priority NEW (1) < INCREASE (2) < DECREASE (3) <
CLOSED (4), then by descending absolute value delta, and (up to the 200
row limit) are exactly the stored rows of that pair. -/
theorem claim_c7 (tbl : List DeltaRow) (cik rp : String) :
    (fetch_manager_deltas tbl cik rp).Pairwise (fun a b =>
        deltaPriority a.delta_type < deltaPriority b.delta_type
        ∨ (deltaPriority a.delta_type = deltaPriority b.delta_type
            ∧ |b.delta_value_usd| ≤ |a.delta_value_usd|))
    ∧ deltaPriority DeltaType.new = 1 ∧ deltaPriority DeltaType.increase = 2
    ∧ deltaPriority DeltaType.decrease = 3 ∧ deltaPriority DeltaType.closed = 4
    ∧ ((tbl.filter (fun r => r.cik == cik && r.reportPeriod == rp)).length ≤ 200 →
        (fetch_manager_deltas tbl cik rp).Perm
          (tbl.filter (fun r => r.cik == cik && r.reportPeriod == rp))) := by
  refine ⟨?_, rfl, rfl, rfl, rfl, ?_⟩
  · have hs : (List.insertionSort deltaOrder
        (tbl.filter (fun r => r.cik == cik && r.reportPeriod == rp))).Pairwise deltaOrder :=
      List.sorted_insertionSort deltaOrder _
    exact List.Pairwise.sublist (List.take_sublist 200 _) hs
  · intro hlen
    have hperm := List.perm_insertionSort deltaOrder
      (tbl.filter (fun r => r.cik == cik && r.reportPeriod == rp))
    unfold fetch_manager_deltas
    rw [List.take_of_length_le (by rw [hperm.length_eq]; exact hlen)]
    exact hperm

/-- Witness for C7 on a three-row table. -/
theorem claim_c7_witness :
    ([(⟨"M", "P", "A", "IA", DeltaType.closed, 0, 0, 0, 0, 0, -5, 0, 0, 0⟩ : DeltaRow),
        ⟨"M", "P", "B", "IB", DeltaType.new, 0, 1, 1, 0, 9, 9, 0, 1, 1⟩,
        ⟨"M", "P", "C", "IC", DeltaType.new, 0, 1, 1, 0, 2, 2, 0, 1, 1⟩].filter
          (fun r => r.cik == "M" && r.reportPeriod == "P")).length ≤ 200
    ∧ (fetch_manager_deltas
        [⟨"M", "P", "A", "IA", DeltaType.closed, 0, 0, 0, 0, 0, -5, 0, 0, 0⟩,
          ⟨"M", "P", "B", "IB", DeltaType.new, 0, 1, 1, 0, 9, 9, 0, 1, 1⟩,
          ⟨"M", "P", "C", "IC", DeltaType.new, 0, 1, 1, 0, 2, 2, 0, 1, 1⟩] "M" "P").Perm
        ([⟨"M", "P", "A", "IA", DeltaType.closed, 0, 0, 0, 0, 0, -5, 0, 0, 0⟩,
          ⟨"M", "P", "B", "IB", DeltaType.new, 0, 1, 1, 0, 9, 9, 0, 1, 1⟩,
          ⟨"M", "P", "C", "IC", DeltaType.new, 0, 1, 1, 0, 2, 2, 0, 1, 1⟩].filter
            (fun r => r.cik == "M" && r.reportPeriod == "P")) := by
  refine ⟨by simp, ?_⟩
  exact (claim_c7
    [⟨"M", "P", "A", "IA", DeltaType.closed, 0, 0, 0, 0, 0, -5, 0, 0, 0⟩,
      ⟨"M", "P", "B", "IB", DeltaType.new, 0, 1, 1, 0, 9, 9, 0, 1, 1⟩,
      ⟨"M", "P", "C", "IC", DeltaType.new, 0, 1, 1, 0, 2, 2, 0, 1, 1⟩] "M" "P").2.2.2.2.2
    (by simp)

/-! ### Top-10 concentration -/

/-- C9: the top-10 concentration equals the sum, over the first
min(10, position_count) rows of the period in descending order of
market value, of `market_value / total * 100` (0 when the total is not
positive); the list summed over is a descending-ordered permutation of
the period's rows. -/
theorem claim_c9 (rows : List PosRow) (top_n : Nat) (h : 10 ≤ top_n) :
    build_manager_snapshot_top10 rows top_n
      = (((List.insertionSort valDesc rows).take (min 10 rows.length)).map
          (fun r => if 0 < totalValue rows
            then r.value_usd.getD 0 / totalValue rows * 100 else 0)).sum
    ∧ (List.insertionSort valDesc rows).Perm rows
    ∧ (List.insertionSort valDesc rows).Pairwise valDesc := by
  refine ⟨?_, List.perm_insertionSort _ _, List.sorted_insertionSort _ _⟩
  unfold build_manager_snapshot_top10
  dsimp only
  have hlen : (List.insertionSort valDesc rows).length = rows.length :=
    (List.perm_insertionSort valDesc rows).length_eq
  rw [List.take_take, Nat.min_comm 10 top_n, Nat.min_eq_right h]
  rw [← hlen, ← List.take_length (List.insertionSort valDesc rows), List.take_take,
    List.take_length]

/-- Witness for C9 with the default `top_n = 50`. -/
theorem claim_c9_witness :
    (10 ≤ 50)
    ∧ build_manager_snapshot_top10
        [⟨"a", "ia", some 1, some 10⟩, ⟨"b", "ib", some 1, some 30⟩] 50
      = (((List.insertionSort valDesc
            [⟨"a", "ia", some 1, some 10⟩, ⟨"b", "ib", some 1, some 30⟩]).take
              (min 10 ([⟨"a", "ia", some 1, some 10⟩,
                  (⟨"b", "ib", some 1, some 30⟩ : PosRow)].length))).map
          (fun r => if 0 < totalValue
              [⟨"a", "ia", some 1, some 10⟩, ⟨"b", "ib", some 1, some 30⟩]
            then r.value_usd.getD 0
              / totalValue [⟨"a", "ia", some 1, some 10⟩, ⟨"b", "ib", some 1, some 30⟩]
              * 100 else 0)).sum :=
  ⟨by norm_num,
    (claim_c9 [⟨"a", "ia", some 1, some 10⟩, ⟨"b", "ib", some 1, some 30⟩] 50
      (by norm_num)).1⟩

/-! ### The committed-state trace of `main` -/

theorem scanl_getLast? {α β : Type} (f : α → β → α) :
    ∀ (l : List β) (b : α), (List.scanl f b l).getLast? = some (List.foldl f b l)
  | [], _ => rfl
  | x :: xs, b => by
    rw [List.scanl_cons, List.getLast?_append, scanl_getLast? f xs (f b x)]
    rfl

/-- Amended C5: a run of `main` is a whole-table rebuild, not a per-pair
atomic replacement: the first committed state after the initial one is
the empty table (the global `DELETE` commits on its own), each insert
batch then commits separately, and only the final committed state holds
the recomputed delta rows of every adjacent-period pair. -/
theorem claim_c5 (tbl : List DbPosRow) (delta0 : List DeltaRow) :
    (mainTrace tbl delta0).head? = some delta0
    ∧ (mainTrace tbl delta0)[1]? = some []
    ∧ (mainTrace tbl delta0).getLast? = some (allDeltaRows tbl) := by
  refine ⟨rfl, ?_, ?_⟩
  · unfold mainTrace
    cases insertBatches tbl with
    | nil => rfl
    | cons b bs => simp [List.scanl_cons]
  · unfold mainTrace allDeltaRows
    rw [← List.singleton_append, List.getLast?_append, scanl_getLast?]
    rfl

/-- Counterexample to C5 as stated: starting from the delta table a
previous identical run produced, the run's committed trace contains a
state in which pair (B, 2) — whose old and new record sets are equal and
nonempty — has no records at all, so the replacement is neither
per-pair atomic nor frame-preserving for other pairs. -/
theorem claim_c5_counterexample :
    deltaRowsForPair (allDeltaRows exTbl5) "B" "2" ≠ []
    ∧ ¬ ∀ st ∈ mainTrace exTbl5 (allDeltaRows exTbl5),
        deltaRowsForPair st "B" "2" ≠ [] := by
  decide

/-! ### Dict semantics of the snapshot loader -/

theorem mkPosition_value (t : ℚ) (r : PosRow) :
    (mkPosition t r).value_usd = r.value_usd.getD 0 := rfl

theorem mkPosition_weight (t : ℚ) (r : PosRow) :
    (mkPosition t r).weight_pct
      = if 0 < t then r.value_usd.getD 0 / t * 100 else 0 := rfl

theorem totalValue_cons (r : PosRow) (rs : List PosRow) :
    totalValue (r :: rs) = r.value_usd.getD 0 + totalValue rs := by
  unfold totalValue
  simp

theorem clampTotal_pos (t : ℚ) : 0 < clampTotal t ↔ 0 < t := by
  unfold clampTotal
  split_ifs with h
  · constructor <;> intro h0 <;> [exact absurd h0 (lt_irrefl 0); linarith]
  · exact Iff.rfl

theorem clampTotal_eq_of_pos {t : ℚ} (h : 0 < t) : clampTotal t = t := by
  unfold clampTotal
  rw [if_neg (by linarith)]

theorem sumVals_cons (kv : String × Position) (m : List (String × Position)) :
    sumVals (kv :: m) = kv.2.value_usd + sumVals m := by
  unfold sumVals
  simp

theorem sumVals_append (m1 m2 : List (String × Position)) :
    sumVals (m1 ++ m2) = sumVals m1 + sumVals m2 := by
  unfold sumVals
  rw [List.map_append, List.sum_append]

theorem curVal_cons_pos {kv : String × Position} {k : String} (m : List (String × Position))
    (h : kv.1 = k) : curVal (kv :: m) k = kv.2.value_usd := by
  unfold curVal findPos
  rw [List.find?_cons_of_pos _ (by simp [h])]
  rfl

theorem curVal_cons_neg {kv : String × Position} {k : String} (m : List (String × Position))
    (h : kv.1 ≠ k) : curVal (kv :: m) k = curVal m k := by
  unfold curVal findPos
  rw [List.find?_cons_of_neg _ (by simp [h])]

theorem curVal_eq_zero_of_not_mem {m : List (String × Position)} {k : String}
    (h : k ∉ m.map Prod.fst) : curVal m k = 0 := by
  unfold curVal findPos
  have hnone : m.find? (fun kv => kv.1 == k) = none := by
    rw [List.find?_eq_none]
    intro x hx
    simp only [beq_iff_eq]
    intro he
    exact h (List.mem_map.mpr ⟨x, hx, he⟩)
  rw [hnone]
  rfl

theorem curVal_nonneg {m : List (String × Position)} (k : String)
    (h : ∀ e ∈ m, 0 ≤ e.2.value_usd) : 0 ≤ curVal m k := by
  unfold curVal findPos
  cases hf : m.find? (fun kv => kv.1 == k) with
  | none => simp
  | some kv => simpa using h kv (List.mem_of_find?_eq_some hf)

theorem mem_dictUpsert {m : List (String × Position)} {k : String} {v : Position}
    {e : String × Position} (h : e ∈ dictUpsert m k v) : e ∈ m ∨ e = (k, v) := by
  unfold dictUpsert at h
  by_cases hk : k ∈ m.map Prod.fst
  · rw [if_pos hk] at h
    obtain ⟨kv, hkv, he⟩ := List.mem_map.mp h
    by_cases hkv1 : kv.1 = k
    · rw [if_pos hkv1] at he
      exact Or.inr he.symm
    · rw [if_neg hkv1] at he
      exact Or.inl (he ▸ hkv)
  · rw [if_neg hk] at h
    rcases List.mem_append.mp h with h | h
    · exact Or.inl h
    · exact Or.inr (by simpa using h)

theorem mem_foldl_dictUpsert (t : ℚ) :
    ∀ (l : List PosRow) (m : List (String × Position)) (e : String × Position),
      e ∈ l.foldl (fun m r => dictUpsert m r.cusip (mkPosition t r)) m →
      e ∈ m ∨ ∃ r ∈ l, e = (r.cusip, mkPosition t r)
  | [], _, _, h => Or.inl h
  | r :: rs, m, e, h => by
    rcases mem_foldl_dictUpsert t rs _ e h with hm | ⟨r2, hr2, he⟩
    · rcases mem_dictUpsert hm with h1 | h1
      · exact Or.inl h1
      · exact Or.inr ⟨r, by simp, h1⟩
    · exact Or.inr ⟨r2, by simp [hr2], he⟩

theorem mem_fetch {rows : List PosRow} {e : String × Position}
    (h : e ∈ fetch_quarter_positions rows) :
    ∃ r ∈ rows, e = (r.cusip, mkPosition (clampTotal (totalValue rows)) r) := by
  have h2 := mem_foldl_dictUpsert (clampTotal (totalValue rows)) rows [] e
    (by simpa [fetch_quarter_positions] using h)
  rcases h2 with h2 | h2
  · exact absurd h2 (by simp)
  · exact h2

theorem keys_dictUpsert_of_mem {m : List (String × Position)} {k : String} (v : Position)
    (h : k ∈ m.map Prod.fst) :
    (dictUpsert m k v).map Prod.fst = m.map Prod.fst := by
  unfold dictUpsert
  rw [if_pos h, List.map_map]
  apply List.map_congr_left
  intro kv _
  by_cases hkv : kv.1 = k
  · simp [hkv]
  · simp [hkv]

theorem keys_dictUpsert_of_not_mem {m : List (String × Position)} {k : String} (v : Position)
    (h : k ∉ m.map Prod.fst) :
    (dictUpsert m k v).map Prod.fst = m.map Prod.fst ++ [k] := by
  unfold dictUpsert
  rw [if_neg h, List.map_append]
  rfl

theorem nodup_keys_dictUpsert {m : List (String × Position)} (k : String) (v : Position)
    (h : (m.map Prod.fst).Nodup) :
    ((dictUpsert m k v).map Prod.fst).Nodup := by
  by_cases hk : k ∈ m.map Prod.fst
  · rw [keys_dictUpsert_of_mem v hk]
    exact h
  · rw [keys_dictUpsert_of_not_mem v hk, List.nodup_append]
    exact ⟨h, List.nodup_singleton k, by simpa using hk⟩

theorem nodup_keys_foldl (t : ℚ) :
    ∀ (l : List PosRow) (m : List (String × Position)),
      (m.map Prod.fst).Nodup →
      ((l.foldl (fun m r => dictUpsert m r.cusip (mkPosition t r)) m).map Prod.fst).Nodup
  | [], _, h => h
  | r :: rs, m, h => nodup_keys_foldl t rs _ (nodup_keys_dictUpsert _ _ h)

theorem nodup_keys_fetch (rows : List PosRow) :
    ((fetch_quarter_positions rows).map Prod.fst).Nodup := by
  simpa [fetch_quarter_positions] using
    nodup_keys_foldl (clampTotal (totalValue rows)) rows [] (by simp)

theorem find?_replaceList (m : List (String × Position)) (k : String) (v : Position)
    (hk : k ∈ m.map Prod.fst) :
    (m.map (fun kv => if kv.1 = k then (k, v) else kv)).find? (fun kv => kv.1 == k)
      = some (k, v) := by
  induction m with
  | nil => exact absurd hk (by simp)
  | cons kv m ih =>
    by_cases hkv : kv.1 = k
    · simp [hkv]
    · rw [List.map_cons, if_neg hkv, List.find?_cons_of_neg _ (by simp [hkv])]
      refine ih ?_
      rw [List.map_cons] at hk
      rcases List.mem_cons.mp hk with h | h
      · exact absurd h.symm hkv
      · exact h

theorem findPos_dictUpsert_self (m : List (String × Position)) (k : String) (v : Position) :
    findPos (dictUpsert m k v) k = some v := by
  unfold dictUpsert
  by_cases hk : k ∈ m.map Prod.fst
  · rw [if_pos hk]
    unfold findPos
    rw [find?_replaceList m k v hk]
    rfl
  · rw [if_neg hk]
    unfold findPos
    rw [List.find?_append]
    have h1 : m.find? (fun kv => kv.1 == k) = none := by
      rw [List.find?_eq_none]
      intro x hx
      simp only [beq_iff_eq]
      intro he
      exact hk (List.mem_map.mpr ⟨x, hx, he⟩)
    rw [h1]
    simp

theorem find?_replaceList_ne (k c : String) (v : Position) (h : c ≠ k) :
    ∀ m : List (String × Position),
      (m.map (fun kv => if kv.1 = k then (k, v) else kv)).find? (fun kv => kv.1 == c)
        = m.find? (fun kv => kv.1 == c)
  | [] => rfl
  | kv :: m => by
    by_cases hkv : kv.1 = k
    · rw [List.map_cons, if_pos hkv,
        List.find?_cons_of_neg _ (by simp; exact fun he => h he.symm),
        List.find?_cons_of_neg _ (by simp [hkv]; exact fun he => h he.symm)]
      exact find?_replaceList_ne k c v h m
    · by_cases hkc : kv.1 = c
      · rw [List.map_cons, if_neg hkv, List.find?_cons_of_pos _ (by simp [hkc]),
          List.find?_cons_of_pos _ (by simp [hkc])]
      · rw [List.map_cons, if_neg hkv, List.find?_cons_of_neg _ (by simp [hkc]),
          List.find?_cons_of_neg _ (by simp [hkc])]
        exact find?_replaceList_ne k c v h m

theorem findPos_dictUpsert_ne (m : List (String × Position)) (k : String) (v : Position)
    (c : String) (h : c ≠ k) : findPos (dictUpsert m k v) c = findPos m c := by
  unfold dictUpsert
  by_cases hk : k ∈ m.map Prod.fst
  · rw [if_pos hk]
    unfold findPos
    rw [find?_replaceList_ne k c v h m]
  · rw [if_neg hk]
    unfold findPos
    rw [List.find?_append]
    have h2 : List.find? (fun kv => kv.1 == c) [(k, v)] = none := by
      rw [List.find?_cons_of_neg _ (by simp; exact fun he => h he.symm)]
      rfl
    rw [h2]
    simp

theorem findPos_foldl_reverse (t : ℚ) :
    ∀ (l : List PosRow) (m : List (String × Position)) (k : String),
      findPos (l.foldl (fun m r => dictUpsert m r.cusip (mkPosition t r)) m) k
        = match l.reverse.find? (fun r => r.cusip == k) with
          | some r => some (mkPosition t r)
          | none => findPos m k
  | [], _, _ => by simp
  | r :: rs, m, k => by
    rw [List.foldl_cons, findPos_foldl_reverse t rs _ k, List.reverse_cons, List.find?_append]
    cases hfind : rs.reverse.find? (fun x => x.cusip == k) with
    | some r2 => simp
    | none =>
      simp only [Option.none_or]
      by_cases hk : r.cusip = k
      · subst hk
        rw [List.find?_cons_of_pos _ (by simp)]
        exact findPos_dictUpsert_self m r.cusip (mkPosition t r)
      · rw [List.find?_cons_of_neg _ (by simp [hk]), List.find?_nil]
        exact findPos_dictUpsert_ne m r.cusip (mkPosition t r) k (fun he => hk he.symm)

theorem findPos_fetch (rows : List PosRow) (k : String) :
    findPos (fetch_quarter_positions rows) k
      = (rows.reverse.find? (fun r => r.cusip == k)).map
          (fun r => mkPosition (clampTotal (totalValue rows)) r) := by
  unfold fetch_quarter_positions
  dsimp only
  rw [findPos_foldl_reverse]
  cases hf : rows.reverse.find? (fun r => r.cusip == k) with
  | some r => rfl
  | none => rfl

theorem foldl_dictUpsert_eq_append (t : ℚ) :
    ∀ (l : List PosRow) (m : List (String × Position)),
      (l.map PosRow.cusip).Nodup →
      (∀ r ∈ l, r.cusip ∉ m.map Prod.fst) →
      l.foldl (fun m r => dictUpsert m r.cusip (mkPosition t r)) m
        = m ++ l.map (fun r => (r.cusip, mkPosition t r))
  | [], m, _, _ => by simp
  | r :: rs, m, hnd, hdisj => by
    have hr : r.cusip ∉ m.map Prod.fst := hdisj r (by simp)
    have hstep : dictUpsert m r.cusip (mkPosition t r)
        = m ++ [(r.cusip, mkPosition t r)] := by
      unfold dictUpsert
      rw [if_neg hr]
    have hnd2 : (rs.map PosRow.cusip).Nodup := by
      rw [List.map_cons] at hnd
      exact (List.nodup_cons.mp hnd).2
    have hhead : r.cusip ∉ rs.map PosRow.cusip := by
      rw [List.map_cons] at hnd
      exact (List.nodup_cons.mp hnd).1
    have hdisj2 : ∀ x ∈ rs, x.cusip ∉ (m ++ [(r.cusip, mkPosition t r)]).map Prod.fst := by
      intro x hx
      rw [List.map_append]
      intro hmem
      rcases List.mem_append.mp hmem with hmem | hmem
      · exact hdisj x (by simp [hx]) hmem
      · have : x.cusip = r.cusip := by simpa using hmem
        exact hhead (this ▸ List.mem_map.mpr ⟨x, hx, rfl⟩)
    rw [List.foldl_cons, hstep, foldl_dictUpsert_eq_append t rs _ hnd2 hdisj2]
    simp

theorem fetch_eq_map_of_nodup {rows : List PosRow}
    (h : (rows.map PosRow.cusip).Nodup) :
    fetch_quarter_positions rows
      = rows.map (fun r => (r.cusip, mkPosition (clampTotal (totalValue rows)) r)) := by
  have heq := foldl_dictUpsert_eq_append (clampTotal (totalValue rows)) rows [] h (by simp)
  simpa [fetch_quarter_positions] using heq

/-- C8: a period with no stored rows loads as the empty mapping (no
error is possible: the loader is a total function), and null share or
value columns are coerced to zero both in the per-position fields and in
the period total. -/
theorem claim_c8 (rows : List PosRow) :
    fetch_quarter_positions ([] : List PosRow) = []
    ∧ totalValue rows = (rows.map (fun r => r.value_usd.getD 0)).sum
    ∧ ∀ e ∈ fetch_quarter_positions rows, ∃ r ∈ rows,
        e.2.shares = r.shares.getD 0 ∧ e.2.value_usd = r.value_usd.getD 0 := by
  refine ⟨rfl, rfl, ?_⟩
  intro e he
  obtain ⟨r, hr, hre⟩ := mem_fetch he
  exact ⟨r, hr, by rw [hre]; rfl, by rw [hre]; rfl⟩

/-- Witness for C8 on a single row with null shares and value. -/
theorem claim_c8_witness :
    (("X", mkPosition (clampTotal (totalValue [⟨"X", "I", none, none⟩]))
        ⟨"X", "I", none, none⟩)
      ∈ fetch_quarter_positions [(⟨"X", "I", none, none⟩ : PosRow)])
    ∧ ∃ r ∈ [(⟨"X", "I", none, none⟩ : PosRow)],
        (mkPosition (clampTotal (totalValue [⟨"X", "I", none, none⟩]))
            ⟨"X", "I", none, none⟩).shares = r.shares.getD 0
        ∧ (mkPosition (clampTotal (totalValue [⟨"X", "I", none, none⟩]))
            ⟨"X", "I", none, none⟩).value_usd = r.value_usd.getD 0 := by
  have hmem : ("X", mkPosition (clampTotal (totalValue [⟨"X", "I", none, none⟩]))
      ⟨"X", "I", none, none⟩)
      ∈ fetch_quarter_positions [(⟨"X", "I", none, none⟩ : PosRow)] := by
    simp [fetch_quarter_positions, dictUpsert]
  exact ⟨hmem, (claim_c8 [⟨"X", "I", none, none⟩]).2.2 _ hmem⟩

/-- C2: every loaded position's weight is `value / total * 100` when the
period total is positive and 0 otherwise; with the per-period key
uniqueness the data model guarantees, the weights of a positive-total
period sum to exactly 100. -/
theorem claim_c2 (rows : List PosRow) :
    (∀ e ∈ fetch_quarter_positions rows,
        e.2.weight_pct
          = if 0 < totalValue rows then e.2.value_usd / totalValue rows * 100 else 0)
    ∧ ((rows.map PosRow.cusip).Nodup → 0 < totalValue rows →
        sumWeights (fetch_quarter_positions rows) = 100) := by
  constructor
  · intro e he
    obtain ⟨r, hr, hre⟩ := mem_fetch he
    subst hre
    by_cases htot : 0 < totalValue rows
    · rw [if_pos htot]
      show (mkPosition (clampTotal (totalValue rows)) r).weight_pct = _
      rw [mkPosition_weight, mkPosition_value, clampTotal_eq_of_pos htot, if_pos htot]
    · rw [if_neg htot]
      show (mkPosition (clampTotal (totalValue rows)) r).weight_pct = 0
      rw [mkPosition_weight, if_neg (by rw [clampTotal_pos]; exact htot)]
  · intro hnd htot
    rw [fetch_eq_map_of_nodup hnd]
    unfold sumWeights
    rw [List.map_map]
    have hpt : ∀ r ∈ rows,
        ((fun kv : String × Position => kv.2.weight_pct)
          ∘ fun r => (r.cusip, mkPosition (clampTotal (totalValue rows)) r)) r
        = r.value_usd.getD 0 * (100 / totalValue rows) := by
      intro r _
      show (mkPosition (clampTotal (totalValue rows)) r).weight_pct = _
      rw [mkPosition_weight, clampTotal_eq_of_pos htot, if_pos htot]
      ring
    rw [List.map_congr_left hpt, List.sum_map_mul_right]
    have hsum : (rows.map (fun r => r.value_usd.getD 0)).sum = totalValue rows := rfl
    rw [hsum]
    field_simp

/-- Witness for C2 on a two-position period with total 40. -/
theorem claim_c2_witness :
    (([(⟨"AAA", "IssA", some 1, some 10⟩ : PosRow),
        ⟨"BBB", "IssB", some 1, some 30⟩].map PosRow.cusip).Nodup)
    ∧ 0 < totalValue [⟨"AAA", "IssA", some 1, some 10⟩, ⟨"BBB", "IssB", some 1, some 30⟩]
    ∧ sumWeights (fetch_quarter_positions
        [⟨"AAA", "IssA", some 1, some 10⟩, ⟨"BBB", "IssB", some 1, some 30⟩]) = 100 :=
  ⟨by decide, by norm_num [totalValue],
    (claim_c2 [⟨"AAA", "IssA", some 1, some 10⟩, ⟨"BBB", "IssB", some 1, some 30⟩]).2
      (by decide) (by norm_num [totalValue])⟩

theorem sumVals_replaceList (k : String) (v : Position) :
    ∀ m : List (String × Position), (m.map Prod.fst).Nodup → k ∈ m.map Prod.fst →
      sumVals (m.map (fun kv => if kv.1 = k then (k, v) else kv))
        = sumVals m - curVal m k + v.value_usd
  | [], _, hk => absurd hk (by simp)
  | kv :: m, hnd, hk => by
    rw [List.map_cons] at hnd hk
    by_cases hkv : kv.1 = k
    · have hknotin : k ∉ m.map Prod.fst := hkv ▸ (List.nodup_cons.mp hnd).1
      have hid : ∀ x ∈ m, (if x.1 = k then (k, v) else x) = id x := by
        intro x hx
        rw [if_neg, id]
        intro hxk
        exact hknotin (List.mem_map.mpr ⟨x, hx, hxk⟩)
      rw [List.map_cons, if_pos hkv, List.map_congr_left hid, List.map_id,
        sumVals_cons, sumVals_cons, curVal_cons_pos m hkv]
      ring
    · have hk2 : k ∈ m.map Prod.fst := by
        rcases List.mem_cons.mp hk with h | h
        · exact absurd h.symm hkv
        · exact h
      rw [List.map_cons, if_neg hkv, sumVals_cons, sumVals_cons, curVal_cons_neg m hkv,
        sumVals_replaceList k v m (List.nodup_cons.mp hnd).2 hk2]
      ring

theorem sumVals_dictUpsert (m : List (String × Position)) (k : String) (v : Position)
    (hnd : (m.map Prod.fst).Nodup) :
    sumVals (dictUpsert m k v) = sumVals m - curVal m k + v.value_usd := by
  unfold dictUpsert
  by_cases hk : k ∈ m.map Prod.fst
  · rw [if_pos hk]
    exact sumVals_replaceList k v m hnd hk
  · rw [if_neg hk, sumVals_append, curVal_eq_zero_of_not_mem hk, sumVals_cons]
    show sumVals m + (v.value_usd + sumVals []) = _
    show sumVals m + (v.value_usd + 0) = _
    ring

theorem entries_nonneg_dictUpsert {m : List (String × Position)} {k : String} {v : Position}
    (hm : ∀ e ∈ m, 0 ≤ e.2.value_usd) (hv : 0 ≤ v.value_usd) :
    ∀ e ∈ dictUpsert m k v, 0 ≤ e.2.value_usd := by
  intro e he
  rcases mem_dictUpsert he with h | h
  · exact hm e h
  · rw [h]
    exact hv

theorem sumVals_foldl_le (t : ℚ) :
    ∀ (l : List PosRow) (m : List (String × Position)),
      (m.map Prod.fst).Nodup → (∀ e ∈ m, 0 ≤ e.2.value_usd) →
      (∀ r ∈ l, 0 ≤ r.value_usd.getD 0) →
      sumVals (l.foldl (fun m r => dictUpsert m r.cusip (mkPosition t r)) m)
        ≤ sumVals m + totalValue l
  | [], m, _, _, _ => by simp [totalValue]
  | r :: rs, m, hnd, hmnn, hlnn => by
    have hv : 0 ≤ (mkPosition t r).value_usd := hlnn r (by simp)
    have step := sumVals_dictUpsert m r.cusip (mkPosition t r) hnd
    have ih := sumVals_foldl_le t rs (dictUpsert m r.cusip (mkPosition t r))
      (nodup_keys_dictUpsert _ _ hnd) (entries_nonneg_dictUpsert hmnn hv)
      (fun x hx => hlnn x (by simp [hx]))
    rw [List.foldl_cons]
    have h0 : 0 ≤ curVal m r.cusip := curVal_nonneg _ hmnn
    have hval := mkPosition_value t r
    have htv := totalValue_cons r rs
    calc sumVals (rs.foldl (fun m r => dictUpsert m r.cusip (mkPosition t r))
            (dictUpsert m r.cusip (mkPosition t r)))
        ≤ sumVals (dictUpsert m r.cusip (mkPosition t r)) + totalValue rs := ih
      _ = sumVals m - curVal m r.cusip + (mkPosition t r).value_usd + totalValue rs := by
          rw [step]
      _ ≤ sumVals m + totalValue (r :: rs) := by
          rw [htv, hval]
          linarith

theorem sumVals_foldl_le_of_mem (t : ℚ) :
    ∀ (l : List PosRow) (m : List (String × Position)) (k : String),
      (m.map Prod.fst).Nodup → (∀ e ∈ m, 0 ≤ e.2.value_usd) →
      (∀ r ∈ l, 0 ≤ r.value_usd.getD 0) →
      k ∈ l.map PosRow.cusip →
      sumVals (l.foldl (fun m r => dictUpsert m r.cusip (mkPosition t r)) m)
        ≤ sumVals m - curVal m k + totalValue l
  | [], _, _, _, _, _, hk => absurd hk (by simp)
  | r :: rs, m, k, hnd, hmnn, hlnn, hk => by
    rw [List.foldl_cons]
    have hv : 0 ≤ (mkPosition t r).value_usd := hlnn r (by simp)
    have hnd2 := nodup_keys_dictUpsert r.cusip (mkPosition t r) hnd
    have hnn2 := @entries_nonneg_dictUpsert m r.cusip (mkPosition t r) hmnn hv
    have hlnn2 : ∀ x ∈ rs, 0 ≤ x.value_usd.getD 0 := fun x hx => hlnn x (by simp [hx])
    have step := sumVals_dictUpsert m r.cusip (mkPosition t r) hnd
    have hval := mkPosition_value t r
    have htv := totalValue_cons r rs
    by_cases hrk : r.cusip = k
    · subst hrk
      have hle := sumVals_foldl_le t rs (dictUpsert m r.cusip (mkPosition t r)) hnd2 hnn2 hlnn2
      calc sumVals (rs.foldl (fun m r => dictUpsert m r.cusip (mkPosition t r))
              (dictUpsert m r.cusip (mkPosition t r)))
          ≤ sumVals (dictUpsert m r.cusip (mkPosition t r)) + totalValue rs := hle
        _ = sumVals m - curVal m r.cusip + (mkPosition t r).value_usd + totalValue rs := by
            rw [step]
        _ ≤ sumVals m - curVal m r.cusip + totalValue (r :: rs) := by
            rw [htv, hval]
            linarith
    · have hk2 : k ∈ rs.map PosRow.cusip := by
        rw [List.map_cons] at hk
        rcases List.mem_cons.mp hk with h | h
        · exact absurd h.symm hrk
        · exact h
      have ih := sumVals_foldl_le_of_mem t rs (dictUpsert m r.cusip (mkPosition t r)) k
        hnd2 hnn2 hlnn2 hk2
      have hcv : curVal (dictUpsert m r.cusip (mkPosition t r)) k = curVal m k := by
        unfold curVal
        rw [findPos_dictUpsert_ne m r.cusip (mkPosition t r) k (fun he => hrk he.symm)]
      have h0 : 0 ≤ curVal m r.cusip := curVal_nonneg _ hmnn
      calc sumVals (rs.foldl (fun m r => dictUpsert m r.cusip (mkPosition t r))
              (dictUpsert m r.cusip (mkPosition t r)))
          ≤ sumVals (dictUpsert m r.cusip (mkPosition t r))
              - curVal (dictUpsert m r.cusip (mkPosition t r)) k + totalValue rs := ih
        _ = sumVals m - curVal m r.cusip + (mkPosition t r).value_usd
              - curVal m k + totalValue rs := by
            rw [step, hcv]
        _ ≤ sumVals m - curVal m k + totalValue (r :: rs) := by
            rw [htv, hval]
            linarith

theorem sumVals_fetch_le (pre post : List PosRow) (r : PosRow)
    (hnn : ∀ x ∈ pre ++ r :: post, 0 ≤ x.value_usd.getD 0)
    (hdup : r.cusip ∈ post.map PosRow.cusip) :
    sumVals (fetch_quarter_positions (pre ++ r :: post))
      ≤ totalValue (pre ++ r :: post) - r.value_usd.getD 0 := by
  obtain ⟨t, ht⟩ : ∃ t, t = clampTotal (totalValue (pre ++ r :: post)) := ⟨_, rfl⟩
  have hnnA : ∀ x ∈ pre ++ [r], 0 ≤ x.value_usd.getD 0 := by
    intro x hx
    refine hnn x ?_
    rcases List.mem_append.mp hx with h | h
    · exact List.mem_append.mpr (Or.inl h)
    · rw [List.mem_singleton] at h
      subst h
      exact List.mem_append.mpr (Or.inr (List.mem_cons_self x post))
  have hnnP : ∀ x ∈ post, 0 ≤ x.value_usd.getD 0 := by
    intro x hx
    exact hnn x (List.mem_append.mpr (Or.inr (by simp [hx])))
  have hndM := nodup_keys_foldl t (pre ++ [r]) [] (by simp)
  have hnnM : ∀ e ∈ (pre ++ [r]).foldl
      (fun m x => dictUpsert m x.cusip (mkPosition t x)) [], 0 ≤ e.2.value_usd := by
    intro e he
    rcases mem_foldl_dictUpsert t (pre ++ [r]) [] e he with h | ⟨x, hx, hex⟩
    · exact absurd h (by simp)
    · rw [hex, mkPosition_value]
      exact hnnA x hx
  have hM : (pre ++ [r]).foldl (fun m x => dictUpsert m x.cusip (mkPosition t x)) []
      = dictUpsert (pre.foldl (fun m x => dictUpsert m x.cusip (mkPosition t x)) [])
          r.cusip (mkPosition t r) := by
    rw [List.foldl_append]
    rfl
  have hcur : curVal ((pre ++ [r]).foldl
      (fun m x => dictUpsert m x.cusip (mkPosition t x)) []) r.cusip
      = r.value_usd.getD 0 := by
    rw [hM]
    unfold curVal
    rw [findPos_dictUpsert_self]
    rfl
  have hMle : sumVals ((pre ++ [r]).foldl
      (fun m x => dictUpsert m x.cusip (mkPosition t x)) [])
      ≤ totalValue (pre ++ [r]) := by
    have h := sumVals_foldl_le t (pre ++ [r]) [] (by simp) (by simp) hnnA
    have h0 : sumVals ([] : List (String × Position)) = 0 := rfl
    rw [h0] at h
    linarith
  have hmain := sumVals_foldl_le_of_mem t post
    ((pre ++ [r]).foldl (fun m x => dictUpsert m x.cusip (mkPosition t x)) [])
    r.cusip hndM hnnM hnnP hdup
  have hsplit : totalValue (pre ++ r :: post)
      = totalValue (pre ++ [r]) + totalValue post := by
    unfold totalValue
    rw [show pre ++ r :: post = (pre ++ [r]) ++ post by simp, List.map_append,
      List.sum_append]
  have hfetch : fetch_quarter_positions (pre ++ r :: post)
      = post.foldl (fun m x => dictUpsert m x.cusip (mkPosition t x))
          ((pre ++ [r]).foldl (fun m x => dictUpsert m x.cusip (mkPosition t x)) []) := by
    unfold fetch_quarter_positions
    dsimp only
    rw [← ht, show pre ++ r :: post = (pre ++ [r]) ++ post by simp, List.foldl_append]
  rw [hfetch, hsplit]
  rw [hcur] at hmain
  linarith

theorem sumWeights_eq_sumVals (rows : List PosRow) (htot : 0 < totalValue rows) :
    sumWeights (fetch_quarter_positions rows)
      = sumVals (fetch_quarter_positions rows) * (100 / totalValue rows) := by
  unfold sumWeights sumVals
  have hpt : ∀ e ∈ fetch_quarter_positions rows,
      e.2.weight_pct = e.2.value_usd * (100 / totalValue rows) := by
    intro e he
    obtain ⟨x, hx, hex⟩ := mem_fetch he
    subst hex
    show (mkPosition (clampTotal (totalValue rows)) x).weight_pct = _
    rw [mkPosition_weight, mkPosition_value, clampTotal_eq_of_pos htot, if_pos htot]
    ring
  rw [List.map_congr_left hpt, List.sum_map_mul_right]

/-- C10: with duplicate cusips among a period's stored rows, the loader
keeps a single entry per cusip — the values of the last such row — while
the period total still sums every row; if an overwritten duplicate row
carries positive market value (and no value is negative), the period
total is positive yet the returned weights sum to strictly less than
100. -/
theorem claim_c10 (pre post : List PosRow) (r : PosRow)
    (hnn : ∀ x ∈ pre ++ r :: post, 0 ≤ x.value_usd.getD 0)
    (hdup : r.cusip ∈ post.map PosRow.cusip)
    (hpos : 0 < r.value_usd.getD 0) :
    ((fetch_quarter_positions (pre ++ r :: post)).map Prod.fst).Nodup
    ∧ (∀ k, findPos (fetch_quarter_positions (pre ++ r :: post)) k
        = ((pre ++ r :: post).reverse.find? (fun x => x.cusip == k)).map
            (fun x => mkPosition (clampTotal (totalValue (pre ++ r :: post))) x))
    ∧ 0 < totalValue (pre ++ r :: post)
    ∧ sumWeights (fetch_quarter_positions (pre ++ r :: post)) < 100 := by
  have htot : 0 < totalValue (pre ++ r :: post) := by
    have hmem : r.value_usd.getD 0
        ∈ (pre ++ r :: post).map (fun x => x.value_usd.getD 0) :=
      List.mem_map.mpr ⟨r, by simp, rfl⟩
    have hle : r.value_usd.getD 0 ≤ totalValue (pre ++ r :: post) :=
      List.single_le_sum
        (fun x hx => by
          obtain ⟨y, hy, hxy⟩ := List.mem_map.mp hx
          rw [← hxy]
          exact hnn y hy)
        _ hmem
    linarith
  refine ⟨nodup_keys_fetch _, fun k => findPos_fetch _ k, htot, ?_⟩
  have hlt := sumVals_fetch_le pre post r hnn hdup
  rw [sumWeights_eq_sumVals _ htot]
  have hc : 0 < 100 / totalValue (pre ++ r :: post) := by positivity
  calc sumVals (fetch_quarter_positions (pre ++ r :: post))
        * (100 / totalValue (pre ++ r :: post))
      ≤ (totalValue (pre ++ r :: post) - r.value_usd.getD 0)
        * (100 / totalValue (pre ++ r :: post)) :=
        mul_le_mul_of_nonneg_right hlt hc.le
    _ < totalValue (pre ++ r :: post) * (100 / totalValue (pre ++ r :: post)) :=
        mul_lt_mul_of_pos_right (by linarith) hc
    _ = 100 := by
        field_simp

/-- Witness for C10: two rows with the same cusip and value 5 each; the
total is 10 but the surviving entry weighs only 50. -/
theorem claim_c10_witness :
    0 < totalValue ([] ++ (⟨"X", "A", some 1, some 5⟩ : PosRow)
        :: [⟨"X", "A", some 2, some 5⟩])
    ∧ sumWeights (fetch_quarter_positions
        ([] ++ (⟨"X", "A", some 1, some 5⟩ : PosRow)
          :: [⟨"X", "A", some 2, some 5⟩])) < 100 :=
  have h := claim_c10 [] [⟨"X", "A", some 2, some 5⟩] ⟨"X", "A", some 1, some 5⟩
    (by decide) (by decide) (by decide)
  ⟨h.2.2.1, h.2.2.2⟩

end HoldIQ
